import Mathlib

/-!
Verification of the Boggle solver (`src/main.py`) against its specification.

The embedding models Python strings as `List Char`, Python sets as lists
used only through membership, Python dicts as association lists updated by
`dictSet` (assignment semantics: overwrite an existing key in place, append
a new key at the end, matching insertion-ordered Python dicts), and board
cells as pairs of integers (offsets can be negative).  File I/O and random
board generation are excluded collaborators per the specification; the
lexicon builder therefore receives the already-line-split word list, and
the board builder receives the already-supplied rows.
-/

/-- A board cell `(row, column)`, as in the Python tuples; integer
components because neighbor offsets can take the coordinates negative. -/
abbrev Cell := Int × Int

/-- The `--neighbors` choice: `all` (8 offsets) or `no_diag` (4 offsets). -/
inductive AdjacencyMode
  | all
  | no_diag
deriving DecidableEq, Repr

/-- The offset list selected at the top of `get_valid_neighbors`, in source
order. -/
def offsetsFor : AdjacencyMode → List Cell
  | .all => [(-1, 0), (0, -1), (1, 0), (0, 1), (-1, -1), (-1, 1), (1, 1), (1, -1)]
  | .no_diag => [(-1, 0), (0, -1), (1, 0), (0, 1)]

/-- `get_letter(board, cell)`: `board[cell[0]][cell[1]]`.  Totalized with
defaults for out-of-range indices; the solver only queries validated
in-bounds cells, where the defaults are never used. -/
def get_letter (board : List (List Char)) (cell : Cell) : Char :=
  (board.getD cell.1.toNat []).getD cell.2.toNat ' '

/-- `get_points(word)`: the Boggle score of one word by length.  The Python
`if/elif` chain is exhaustive over all lengths (`<= 4`, `5`, `6`, `7`,
`>= 8`); the final branch here is exactly its `>= 8` case. -/
def get_points (word : List Char) : Nat :=
  if word.length ≤ 4 then 1
  else if word.length = 5 then 2
  else if word.length = 6 then 3
  else if word.length = 7 then 5
  else 11

/-- `get_score(words)`: fold accumulating `get_points` over the collection,
starting from 0. -/
def get_score (words : List (List Char)) : Nat :=
  words.foldl (fun score word => score + get_points word) 0

/-- The in-bounds test of `get_valid_neighbors`: both coordinates at least
0 and strictly below `len(board)` (the source uses `len(board)` for the
column bound as well). -/
def InBounds (board : List (List Char)) (c : Cell) : Prop :=
  0 ≤ c.1 ∧ c.1 < (board.length : Int) ∧ 0 ≤ c.2 ∧ c.2 < (board.length : Int)

instance (board : List (List Char)) (c : Cell) : Decidable (InBounds board c) := by
  unfold InBounds; infer_instance

/-- Adjacency of two cells under a mode: the second is the first plus one
of the mode's offsets. -/
def adjacent (mode : AdjacencyMode) (p c : Cell) : Prop :=
  ∃ o ∈ offsetsFor mode, c = (p.1 + o.1, p.2 + o.2)

/-- `get_valid_neighbors(args, board, cur_path)`: all offset cells of the
last cell of `cur_path` that are in bounds and not already on the path.
The path is the solver's live buffer whose entries are `Option Cell`
(`None` marks a freshly pushed, not yet filled slot); the function is only
called when the last slot is filled. -/
def get_valid_neighbors (mode : AdjacencyMode) (board : List (List Char))
    (cur_path : List (Option Cell)) : List Cell :=
  match cur_path.getLast? with
  | some (some cur_cell) =>
      ((offsetsFor mode).map (fun offset => (cur_cell.1 + offset.1, cur_cell.2 + offset.2))).filter
        (fun neighbor_cell => decide (InBounds board neighbor_cell ∧ some neighbor_cell ∉ cur_path))
  | _ => []

/-- The truncations `word[:i]` for `i` in `1..=num_letters` added to
`words_trunc_dict` for one word (Python slicing clamps `i` past the end). -/
def truncsOf (word : List Char) (num_letters : Nat) : List (List Char) :=
  (List.range num_letters).map (fun i => word.take (i + 1))

/-- `construct_lookup`: builds the pair `(words_dict, words_trunc_dict)`
from the word list.  Reading and `rstrip`-ing of lines belongs to the
excluded file-I/O collaborator, so the input is the list of words; the
Python sets are modelled as lists used only through membership. -/
def construct_lookup (size : Nat) (wordList : List (List Char)) :
    List (List Char) × List (List Char) :=
  match wordList with
  | [] => ([], [])
  | cur_word :: rest =>
      let acc := construct_lookup size rest
      (cur_word :: acc.1, truncsOf cur_word (size * size) ++ acc.2)

/-- The row loop of `construct_board` for an explicitly supplied board:
reject a row whose length differs from the previous row's
(`exit('Error reading board: board must be square')`), otherwise append
the lowercased row. -/
def construct_board_rows :
    List (List Char) → Option Nat → List (List Char) → Except String (List (List Char))
  | [], _, acc => .ok acc
  | row :: rest, last_size, acc =>
      match last_size with
      | some n =>
          if row.length ≠ n then .error "Error reading board: board must be square"
          else construct_board_rows rest (some row.length) (acc ++ [row.map Char.toLower])
      | none => construct_board_rows rest (some row.length) (acc ++ [row.map Char.toLower])

/-- `construct_board` on the `args.board` branch (an explicitly supplied
board).  The random and dice branches are excluded collaborators per the
specification.  The `size` argument is what the source computes
`board_size`/`num_letters` from; on this branch the source never reads
them. -/
def construct_board (size : Nat) (rows : List (List Char)) : Except String (List (List Char)) :=
  let _ := size
  construct_board_rows rows none []

/-- The result mapping: found word to stored copy of the live path buffer. -/
abbrev Found := List (List Char × List (Option Cell))

/-- Python dict assignment `m[k] = v`: overwrite in place if the key is
present, else append the new binding (insertion order preserved). -/
def dictSet (m : Found) (k : List Char) (v : List (Option Cell)) : Found :=
  if m.any (fun e => decide (e.1 = k)) then
    m.map (fun e => if e.1 = k then (k, v) else e)
  else m ++ [(k, v)]

/-- Replace the last element of a list (Python `l[-1] = a` on a nonempty
list). -/
def setLast (l : List α) (a : α) : List α :=
  l.dropLast ++ [a]

/-- The state of `solve_board`'s while loop: the frontier stack of
exploration levels, the result mapping, and the parallel path/letters
buffers.  As in the Python lists, the end of each list is the top. -/
structure SolveState where
  stack : List (List Cell)
  found : Found
  path : List (Option Cell)
  letters : List (Option Char)
deriving Repr

/-- The immutable inputs of one solve run.  `usePrune := true` is the
source's `solve_board`; `usePrune := false` is the same loop with the
prefix-membership test removed — the specification's unpruned brute-force
enumeration of all simple paths, used as the pruning-soundness oracle. -/
structure SolveCtx where
  usePrune : Bool
  mode : AdjacencyMode
  board : List (List Char)
  words : List (List Char)
  trunc : List (List Char)

/-- `itertools.product(range(len(board)), range(len(board)))`: all cells in
row-major order. -/
def init_cells (board : List (List Char)) : List Cell :=
  (List.range board.length).flatMap
    (fun (i : Nat) => (List.range board.length).map (fun (j : Nat) => ((i : Int), (j : Int))))

/-- The loop's initial state: one frontier level holding every cell, empty
result, and one unfilled slot in each buffer (`cur_path = [None]`,
`cur_letters = [None]`). -/
def initState (board : List (List Char)) : SolveState :=
  ⟨[init_cells board], [], [none], [none]⟩

/-- One iteration of `solve_board`'s while loop.  On an empty stack (the
loop's exit condition) the state is returned unchanged.  Otherwise: an
empty top level backtracks; else the last cell of the top level is popped
into the last path/letters slots, the candidate word is formed, the
prefix test may cut the branch (`usePrune`), a dictionary hit stores a
copy of the path, and nonempty valid neighbors are pushed as a new level
with fresh unfilled slots. -/
def solveStep (ctx : SolveCtx) (s : SolveState) : SolveState :=
  match s.stack.getLast? with
  | none => s
  | some cur_cells =>
      match cur_cells.getLast? with
      | none =>
          ⟨s.stack.dropLast, s.found, s.path.dropLast, s.letters.dropLast⟩
      | some cur_cell =>
          let stack1 := setLast s.stack cur_cells.dropLast
          let cur_path := setLast s.path (some cur_cell)
          let cur_letters := setLast s.letters (some (get_letter ctx.board cur_cell))
          let cur_word := cur_letters.filterMap id
          if ctx.usePrune ∧ cur_word ∉ ctx.trunc then
            ⟨stack1, s.found, cur_path, cur_letters⟩
          else
            let found1 := if cur_word ∈ ctx.words then dictSet s.found cur_word cur_path
                          else s.found
            let neighbor_cells := get_valid_neighbors ctx.mode ctx.board cur_path
            if neighbor_cells.isEmpty then ⟨stack1, found1, cur_path, cur_letters⟩
            else ⟨stack1 ++ [neighbor_cells], found1, cur_path ++ [none], cur_letters ++ [none]⟩

/-- Iterate the loop body a given number of times. -/
def solveRun (ctx : SolveCtx) : Nat → SolveState → SolveState
  | 0, s => s
  | n + 1, s => solveRun ctx n (solveStep ctx s)

/-- The explicit board, lexicon and contexts of the specification's
concrete scenario (§8): grid `[[a,b],[c,d]]`, words
`{ab, ac, abc, abd, ba}`. -/
def scenarioBoard : List (List Char) := [['a', 'b'], ['c', 'd']]

/-- The scenario's raw word list. -/
def scenarioWords : List (List Char) :=
  [['a', 'b'], ['a', 'c'], ['a', 'b', 'c'], ['a', 'b', 'd'], ['b', 'a']]

/-- The scenario's solver inputs for a given adjacency mode, with the
lexicon built by `construct_lookup` for size 2. -/
def scenarioCtx (mode : AdjacencyMode) : SolveCtx :=
  ⟨true, mode, scenarioBoard,
    (construct_lookup 2 scenarioWords).1, (construct_lookup 2 scenarioWords).2⟩

mutual

/-- Reference recursion mirroring one visit of the loop: process cell `c`
at depth `ps.length` (the filled path below is `ps`), then explore its
pushed neighbor level.  The budget only bounds the recursion depth; the
bridge theorem shows `board.length * board.length` is always enough. -/
def exploreCell (ctx : SolveCtx) (b : Nat) (ps : List Cell) (c : Cell) (F : Found) : Found :=
  match b with
  | 0 => F
  | b' + 1 =>
      let cur_path := ps.map some ++ [some c]
      let cur_word := (ps ++ [c]).map (get_letter ctx.board)
      if ctx.usePrune ∧ cur_word ∉ ctx.trunc then F
      else
        let F1 := if cur_word ∈ ctx.words then dictSet F cur_word cur_path else F
        exploreLevel ctx b' (ps ++ [c]) (get_valid_neighbors ctx.mode ctx.board cur_path).reverse F1
termination_by (b, 0)

/-- Process the cells of one frontier level in order (the machine pops its
levels from the end, so a machine level `L` corresponds to
`exploreLevel _ _ _ L.reverse _`). -/
def exploreLevel (ctx : SolveCtx) (b : Nat) (ps : List Cell) (cells : List Cell) (F : Found) :
    Found :=
  match cells with
  | [] => F
  | c :: cs => exploreLevel ctx b ps cs (exploreCell ctx b ps c F)
termination_by (b, cells.length + 1)

end

theorem setLast_concat (l : List α) (a b : α) : setLast (l ++ [a]) b = l ++ [b] := by
  simp [setLast]

theorem filterMap_id_map_some (l : List α) : (l.map some).filterMap id = l := by
  induction l with
  | nil => rfl
  | cons x xs ih => simp [ih]

theorem solveRun_add (ctx : SolveCtx) (m n : Nat) (s : SolveState) :
    solveRun ctx (m + n) s = solveRun ctx n (solveRun ctx m s) := by
  induction m generalizing s with
  | zero => simp [solveRun]
  | succ m ih => rw [Nat.succ_add]; exact ih (solveStep ctx s)

theorem solveStep_halted (ctx : SolveCtx) (s : SolveState) (h : s.stack = []) :
    solveStep ctx s = s := by
  unfold solveStep
  rw [h]
  rfl

theorem solveRun_halted (ctx : SolveCtx) (n : Nat) (s : SolveState) (h : s.stack = []) :
    solveRun ctx n s = s := by
  induction n with
  | zero => rfl
  | succ n ih =>
      show solveRun ctx n (solveStep ctx s) = s
      rw [solveStep_halted ctx s h, ih]

theorem solveRun_halted_eq (ctx : SolveCtx) (m n : Nat) (s : SolveState)
    (hm : (solveRun ctx m s).stack = []) (hn : (solveRun ctx n s).stack = []) :
    solveRun ctx m s = solveRun ctx n s := by
  rcases Nat.le_total m n with h | h
  · obtain ⟨k, rfl⟩ := Nat.exists_eq_add_of_le h
    rw [solveRun_add, solveRun_halted ctx k _ hm]
  · obtain ⟨k, rfl⟩ := Nat.exists_eq_add_of_le h
    rw [solveRun_add, solveRun_halted ctx k _ hn]

theorem solveStep_top_nil (ctx : SolveCtx) (s : SolveState) (h : s.stack.getLast? = some []) :
    solveStep ctx s = ⟨s.stack.dropLast, s.found, s.path.dropLast, s.letters.dropLast⟩ := by
  unfold solveStep
  rw [h]
  rfl

theorem solveStep_visit (ctx : SolveCtx) (s : SolveState) (cells : List Cell) (c : Cell)
    (h1 : s.stack.getLast? = some cells) (h2 : cells.getLast? = some c) :
    solveStep ctx s =
      (let stack1 := setLast s.stack cells.dropLast
       let cur_path := setLast s.path (some c)
       let cur_letters := setLast s.letters (some (get_letter ctx.board c))
       let cur_word := cur_letters.filterMap id
       if ctx.usePrune ∧ cur_word ∉ ctx.trunc then ⟨stack1, s.found, cur_path, cur_letters⟩
       else
         let found1 := if cur_word ∈ ctx.words then dictSet s.found cur_word cur_path
                       else s.found
         let neighbor_cells := get_valid_neighbors ctx.mode ctx.board cur_path
         if neighbor_cells.isEmpty then ⟨stack1, found1, cur_path, cur_letters⟩
         else ⟨stack1 ++ [neighbor_cells], found1, cur_path ++ [none], cur_letters ++ [none]⟩) := by
  unfold solveStep
  simp only [h1, h2]

theorem mem_dictSet {m : Found} {k : List Char} {v : List (Option Cell)} {e}
    (h : e ∈ dictSet m k v) : e ∈ m ∨ e = (k, v) := by
  unfold dictSet at h
  split at h
  · obtain ⟨e0, he0, heq⟩ := List.mem_map.mp h
    by_cases h01 : e0.1 = k
    · rw [if_pos h01] at heq
      exact Or.inr heq.symm
    · rw [if_neg h01] at heq
      exact Or.inl (heq ▸ he0)
  · rcases List.mem_append.mp h with h' | h'
    · exact Or.inl h'
    · right
      simpa using h'

theorem lookup_map_overwrite {m : Found} {k : List Char} {v : List (Option Cell)}
    (h : m.any (fun e => decide (e.1 = k)) = true) :
    List.lookup k (m.map (fun e => if e.1 = k then (k, v) else e)) = some v := by
  induction m with
  | nil => simp at h
  | cons e rest ih =>
      by_cases h01 : e.1 = k
      · obtain ⟨a, b⟩ := e
        simp only [List.map_cons, if_pos h01]
        simp [List.lookup]
      · obtain ⟨a, b⟩ := e
        simp only [List.map_cons, if_neg h01]
        have ha : (k == a) = false := by
          simp only [beq_eq_false_iff_ne, ne_eq]
          intro hk
          exact h01 (by simp [hk])
        rw [List.lookup, ha]
        apply ih
        simp only [List.any_cons, Bool.or_eq_true] at h
        rcases h with h' | h'
        · exact absurd (by simpa using h') h01
        · exact h'

theorem lookup_append_new {m : Found} {k : List Char} {v : List (Option Cell)}
    (h : m.any (fun e => decide (e.1 = k)) = false) :
    List.lookup k (m ++ [(k, v)]) = some v := by
  induction m with
  | nil => simp [List.lookup]
  | cons e rest ih =>
      obtain ⟨a, b⟩ := e
      simp only [List.any_cons, Bool.or_eq_false_iff] at h
      have ha : (k == a) = false := by
        simp only [beq_eq_false_iff_ne, ne_eq]
        intro hk
        have := h.1
        simp [hk] at this
      rw [List.cons_append, List.lookup, ha]
      exact ih h.2

theorem lookup_dictSet (m : Found) (k : List Char) (v : List (Option Cell)) :
    List.lookup k (dictSet m k v) = some v := by
  unfold dictSet
  split
  · next h => exact lookup_map_overwrite h
  · next h => exact lookup_append_new (Bool.eq_false_iff.mpr h)

theorem mem_init_cells {board : List (List Char)} {c : Cell} :
    c ∈ init_cells board ↔ InBounds board c := by
  obtain ⟨x, y⟩ := c
  constructor
  · intro h
    obtain ⟨i, hi, hmem⟩ := List.mem_flatMap.mp h
    obtain ⟨j, hj, heq⟩ := List.mem_map.mp hmem
    have hi' := List.mem_range.mp hi
    have hj' := List.mem_range.mp hj
    have hx : (i : Int) = x := congrArg Prod.fst heq
    have hy : (j : Int) = y := congrArg Prod.snd heq
    refine ⟨?_, ?_, ?_, ?_⟩ <;> omega
  · rintro ⟨hx0, hxn, hy0, hyn⟩
    refine List.mem_flatMap.mpr ⟨x.toNat, List.mem_range.mpr (by omega), ?_⟩
    refine List.mem_map.mpr ⟨y.toNat, List.mem_range.mpr (by omega), ?_⟩
    show ((x.toNat : Int), (y.toNat : Int)) = (x, y)
    rw [Int.toNat_of_nonneg hx0, Int.toNat_of_nonneg hy0]

theorem length_init_cells (board : List (List Char)) :
    (init_cells board).length = board.length * board.length := by
  simp [init_cells, List.length_flatMap, Function.comp_def]

theorem nodup_inbounds_length_le {board : List (List Char)} {l : List Cell}
    (h1 : l.Nodup) (h2 : ∀ c ∈ l, InBounds board c) :
    l.length ≤ board.length * board.length := by
  have hsub : l ⊆ init_cells board := fun c hc => mem_init_cells.mpr (h2 c hc)
  have := (h1.subperm hsub).length_le
  rwa [length_init_cells] at this

theorem mem_get_valid_neighbors {mode : AdjacencyMode} {board : List (List Char)}
    {l : List (Option Cell)} {c nc : Cell} :
    nc ∈ get_valid_neighbors mode board (l ++ [some c]) ↔
      adjacent mode c nc ∧ InBounds board nc ∧ some nc ∉ l ++ [some c] := by
  unfold get_valid_neighbors
  rw [List.getLast?_concat]
  simp only [List.mem_filter, List.mem_map, decide_eq_true_eq, adjacent]
  constructor
  · rintro ⟨⟨o, ho, rfl⟩, hin, hnp⟩
    exact ⟨⟨o, ho, rfl⟩, hin, hnp⟩
  · rintro ⟨⟨o, ho, rfl⟩, hin, hnp⟩
    exact ⟨⟨o, ho, rfl⟩, hin, hnp⟩

theorem exploreLevel_nil (ctx : SolveCtx) (b : Nat) (ps : List Cell) (F : Found) :
    exploreLevel ctx b ps [] F = F := by
  rw [exploreLevel]

theorem exploreLevel_cons (ctx : SolveCtx) (b : Nat) (ps : List Cell) (c : Cell)
    (cs : List Cell) (F : Found) :
    exploreLevel ctx b ps (c :: cs) F = exploreLevel ctx b ps cs (exploreCell ctx b ps c F) := by
  rw [exploreLevel]

theorem exploreCell_succ (ctx : SolveCtx) (b' : Nat) (ps : List Cell) (c : Cell) (F : Found) :
    exploreCell ctx (b' + 1) ps c F =
      (let cur_path := ps.map some ++ [some c]
       let cur_word := (ps ++ [c]).map (get_letter ctx.board)
       if ctx.usePrune ∧ cur_word ∉ ctx.trunc then F
       else
         let F1 := if cur_word ∈ ctx.words then dictSet F cur_word cur_path else F
         exploreLevel ctx b' (ps ++ [c])
           (get_valid_neighbors ctx.mode ctx.board cur_path).reverse F1) := by
  rw [exploreCell]

theorem exploreCell_zero (ctx : SolveCtx) (ps : List Cell) (c : Cell) (F : Found) :
    exploreCell ctx 0 ps c F = F := by
  rw [exploreCell]

theorem filterMap_id_concat (l : List α) (a : α) :
    ((l.map some) ++ [some a]).filterMap id = l ++ [a] := by
  rw [List.filterMap_append, filterMap_id_map_some]
  rfl

theorem nodup_concat_of {l : List Cell} {c : Cell} (hnd : l.Nodup) (hc : c ∉ l) :
    (l ++ [c]).Nodup := by
  rw [List.nodup_append]
  refine ⟨hnd, List.nodup_singleton c, ?_⟩
  intro x hx hx'
  rw [List.mem_singleton] at hx'
  exact hc (hx' ▸ hx)

/-- Bridge between the explicit-stack loop and the recursive reference
exploration.  From a state whose top frontier level is `L` above a fully
filled path `ps` (with matching cached letters), the loop runs in finitely
many steps to the state where `L`'s level has been popped, and the result
mapping has been extended exactly as `exploreLevel` describes; the levels
`S` and slots below are untouched.  The budget is adequate as soon as
`ps.length + b` reaches the cell count, since a simple path can never hold
more than `board.length * board.length` distinct in-bounds cells. -/
theorem run_bridge (ctx : SolveCtx) (b : Nat) (L ps : List Cell) (S : List (List Cell))
    (F : Found) (slot : Option Cell)
    (hnd : ps.Nodup) (hpb : ∀ c ∈ ps, InBounds ctx.board c)
    (hL : ∀ c ∈ L, InBounds ctx.board c ∧ c ∉ ps)
    (hb : ctx.board.length * ctx.board.length ≤ ps.length + b) :
    ∃ N, solveRun ctx N
        ⟨S ++ [L], F, ps.map some ++ [slot],
          (ps.map (get_letter ctx.board)).map some ++ [Option.map (get_letter ctx.board) slot]⟩
      = ⟨S, exploreLevel ctx b ps L.reverse F, ps.map some,
          (ps.map (get_letter ctx.board)).map some⟩ := by
  rcases List.eq_nil_or_concat L with rfl | ⟨L₀, c, rfl⟩
  · refine ⟨1, ?_⟩
    have hstep := solveStep_top_nil ctx
      ⟨S ++ [[]], F, ps.map some ++ [slot],
        (ps.map (get_letter ctx.board)).map some ++ [Option.map (get_letter ctx.board) slot]⟩
      (by simp)
    have h1 : ∀ s, solveRun ctx 1 s = solveStep ctx s := fun s => rfl
    rw [h1, hstep]
    simp [exploreLevel_nil]
  · -- the top level is L₀ ++ [c]: the loop pops c and visits it
    simp only [List.concat_eq_append] at hL ⊢
    have hc := hL c (by simp)
    have hnd' : (ps ++ [c]).Nodup := nodup_concat_of hnd hc.2
    have hpb' : ∀ x ∈ ps ++ [c], InBounds ctx.board x := by
      intro x hx
      rcases List.mem_append.mp hx with h | h
      · exact hpb x h
      · rw [List.mem_singleton] at h
        exact h ▸ hc.1
    have hlen : (ps ++ [c]).length ≤ ctx.board.length * ctx.board.length :=
      nodup_inbounds_length_le hnd' hpb'
    rw [List.length_append, List.length_singleton] at hlen
    obtain ⟨b', hbeq⟩ : ∃ b', b = b' + 1 := ⟨b - 1, by omega⟩
    have hstep := solveStep_visit ctx
      ⟨S ++ [L₀ ++ [c]], F, ps.map some ++ [slot],
        (ps.map (get_letter ctx.board)).map some ++ [Option.map (get_letter ctx.board) slot]⟩
      (L₀ ++ [c]) c (by simp) (List.getLast?_concat _)
    have hstack1 : setLast (S ++ [L₀ ++ [c]]) ((L₀ ++ [c]).dropLast) = S ++ [L₀] := by
      rw [List.dropLast_concat, setLast_concat]
    have hpath1 : setLast (ps.map some ++ [slot]) (some c) = ps.map some ++ [some c] :=
      setLast_concat _ _ _
    have hlet1 : setLast ((ps.map (get_letter ctx.board)).map some
          ++ [Option.map (get_letter ctx.board) slot]) (some (get_letter ctx.board c))
        = (ps.map (get_letter ctx.board)).map some ++ [some (get_letter ctx.board c)] :=
      setLast_concat _ _ _
    have hword : ((ps.map (get_letter ctx.board)).map some
          ++ [some (get_letter ctx.board c)]).filterMap id
        = (ps ++ [c]).map (get_letter ctx.board) := by
      rw [filterMap_id_concat]
      simp
    simp only [hstack1, hpath1, hlet1, hword] at hstep
    have h1 : ∀ s, solveRun ctx 1 s = solveStep ctx s := fun s => rfl
    have hrev : (L₀ ++ [c]).reverse = c :: L₀.reverse := by simp
    have hL₀ : ∀ x ∈ L₀, InBounds ctx.board x ∧ x ∉ ps := fun x hx => hL x (by simp [hx])
    by_cases hpr : ctx.usePrune = true ∧ (ps ++ [c]).map (get_letter ctx.board) ∉ ctx.trunc
    · rw [if_pos hpr] at hstep
      obtain ⟨N', hN'⟩ := run_bridge ctx b L₀ ps S F (some c) hnd hpb hL₀ hb
      refine ⟨1 + N', ?_⟩
      rw [solveRun_add, h1, hstep, hrev, exploreLevel_cons]
      have hcell : exploreCell ctx b ps c F = F := by
        rw [hbeq, exploreCell_succ]
        show (if ctx.usePrune = true ∧ (ps ++ [c]).map (get_letter ctx.board) ∉ ctx.trunc
              then F else _) = F
        rw [if_pos hpr]
      rw [hcell]
      exact hN'
    · rw [if_neg hpr] at hstep
      by_cases hns : (get_valid_neighbors ctx.mode ctx.board (ps.map some ++ [some c])).isEmpty
        = true
      · -- dead end: nothing is pushed
        have hns' : get_valid_neighbors ctx.mode ctx.board (ps.map some ++ [some c]) = [] := by
          simpa using hns
        rw [if_pos hns] at hstep
        obtain ⟨N', hN'⟩ := run_bridge ctx b L₀ ps S
          (if (ps ++ [c]).map (get_letter ctx.board) ∈ ctx.words
           then dictSet F ((ps ++ [c]).map (get_letter ctx.board)) (ps.map some ++ [some c])
           else F) (some c) hnd hpb hL₀ hb
        refine ⟨1 + N', ?_⟩
        rw [solveRun_add, h1, hstep, hrev, exploreLevel_cons]
        have hcell : exploreCell ctx b ps c F
            = (if (ps ++ [c]).map (get_letter ctx.board) ∈ ctx.words
               then dictSet F ((ps ++ [c]).map (get_letter ctx.board))
                 (ps.map some ++ [some c])
               else F) := by
          rw [hbeq, exploreCell_succ]
          show (if ctx.usePrune = true ∧ (ps ++ [c]).map (get_letter ctx.board) ∉ ctx.trunc
                then F else _) = _
          rw [if_neg hpr, hns']
          exact exploreLevel_nil _ _ _ _
        rw [hcell]
        exact hN'
      · -- live branch: the neighbor level is pushed and fully explored first
        have hnsf : (get_valid_neighbors ctx.mode ctx.board (ps.map some ++ [some c])).isEmpty
            = false := Bool.eq_false_iff.mpr hns
        rw [hnsf] at hstep
        rw [if_neg (by simp)] at hstep
        have hLns : ∀ x ∈ get_valid_neighbors ctx.mode ctx.board (ps.map some ++ [some c]),
            InBounds ctx.board x ∧ x ∉ ps ++ [c] := by
          intro x hx
          obtain ⟨hadj, hin, hnp⟩ := mem_get_valid_neighbors.mp hx
          refine ⟨hin, fun hmem => hnp ?_⟩
          have : some x ∈ (ps ++ [c]).map some := List.mem_map_of_mem some hmem
          simpa using this
        have hb'' : ctx.board.length * ctx.board.length ≤ (ps ++ [c]).length + b' := by
          rw [List.length_append, List.length_singleton]
          omega
        obtain ⟨N₁, hN₁⟩ := run_bridge ctx b'
          (get_valid_neighbors ctx.mode ctx.board (ps.map some ++ [some c]))
          (ps ++ [c]) (S ++ [L₀])
          (if (ps ++ [c]).map (get_letter ctx.board) ∈ ctx.words
           then dictSet F ((ps ++ [c]).map (get_letter ctx.board)) (ps.map some ++ [some c])
           else F) none hnd' hpb' hLns hb''
        obtain ⟨N₂, hN₂⟩ := run_bridge ctx b L₀ ps S
          (exploreLevel ctx b' (ps ++ [c])
            (get_valid_neighbors ctx.mode ctx.board (ps.map some ++ [some c])).reverse
            (if (ps ++ [c]).map (get_letter ctx.board) ∈ ctx.words
             then dictSet F ((ps ++ [c]).map (get_letter ctx.board)) (ps.map some ++ [some c])
             else F)) (some c) hnd hpb hL₀ hb
        refine ⟨1 + (N₁ + N₂), ?_⟩
        rw [solveRun_add, h1, hstep, solveRun_add]
        have hmapp : (ps ++ [c]).map some = ps.map some ++ [some c] := by simp
        have hmapl : ((ps ++ [c]).map (get_letter ctx.board)).map some
            = (ps.map (get_letter ctx.board)).map some ++ [some (get_letter ctx.board c)] := by
          simp
        rw [show ((ps.map some ++ [some c]) ++ [none] : List (Option Cell))
              = (ps ++ [c]).map some ++ [none] from by rw [hmapp]]
        rw [show (((ps.map (get_letter ctx.board)).map some
                ++ [some (get_letter ctx.board c)]) ++ [none] : List (Option Char))
              = ((ps ++ [c]).map (get_letter ctx.board)).map some
                ++ [Option.map (get_letter ctx.board) none] from by rw [hmapl]; rfl]
        rw [hN₁]
        rw [show ((ps ++ [c]).map some : List (Option Cell))
              = ps.map some ++ [some c] from hmapp]
        rw [show (((ps ++ [c]).map (get_letter ctx.board)).map some : List (Option Char))
              = (ps.map (get_letter ctx.board)).map some
                ++ [Option.map (get_letter ctx.board) (some c)] from by rw [hmapl]; rfl]
        rw [hN₂, hrev, exploreLevel_cons]
        have hcell : exploreCell ctx b ps c F
            = exploreLevel ctx b' (ps ++ [c])
                (get_valid_neighbors ctx.mode ctx.board (ps.map some ++ [some c])).reverse
                (if (ps ++ [c]).map (get_letter ctx.board) ∈ ctx.words
                 then dictSet F ((ps ++ [c]).map (get_letter ctx.board))
                   (ps.map some ++ [some c])
                 else F) := by
          rw [hbeq, exploreCell_succ]
          show (if ctx.usePrune = true ∧ (ps ++ [c]).map (get_letter ctx.board) ∉ ctx.trunc
                then F else _) = _
          rw [if_neg hpr]
        rw [hcell]
termination_by (b, L.length)

theorem exploreCell_succ' (ctx : SolveCtx) (b' : Nat) (ps : List Cell) (c : Cell) (F : Found) :
    exploreCell ctx (b' + 1) ps c F =
      if ctx.usePrune = true ∧ (ps ++ [c]).map (get_letter ctx.board) ∉ ctx.trunc then F
      else
        exploreLevel ctx b' (ps ++ [c])
          (get_valid_neighbors ctx.mode ctx.board (ps.map some ++ [some c])).reverse
          (if (ps ++ [c]).map (get_letter ctx.board) ∈ ctx.words
           then dictSet F ((ps ++ [c]).map (get_letter ctx.board)) (ps.map some ++ [some c])
           else F) := by
  rw [exploreCell_succ]

/-- What every binding of the result mapping satisfies: the stored buffer
copy is a fully filled path whose cells are distinct, in bounds and
consecutively adjacent, and whose letters spell the stored word. -/
def GoodEntry (board : List (List Char)) (mode : AdjacencyMode)
    (e : List Char × List (Option Cell)) : Prop :=
  ∃ q : List Cell, e.2 = q.map some ∧ q ≠ [] ∧ q.Nodup ∧ (∀ c ∈ q, InBounds board c) ∧
    List.Chain' (adjacent mode) q ∧ e.1 = q.map (get_letter board)

theorem explore_good (ctx : SolveCtx) (b : Nat) (ps cells : List Cell) (F : Found)
    (hnd : ps.Nodup) (hpb : ∀ c ∈ ps, InBounds ctx.board c)
    (hch : List.Chain' (adjacent ctx.mode) ps)
    (hcells : ∀ c ∈ cells, InBounds ctx.board c ∧ c ∉ ps ∧
        ∀ x, ps.getLast? = some x → adjacent ctx.mode x c)
    (hF : ∀ e ∈ F, GoodEntry ctx.board ctx.mode e) :
    ∀ e ∈ exploreLevel ctx b ps cells F, GoodEntry ctx.board ctx.mode e := by
  match cells with
  | [] =>
      rw [exploreLevel_nil]
      exact hF
  | c :: cs =>
      rw [exploreLevel_cons]
      have hc := hcells c (by simp)
      have hF' : ∀ e ∈ exploreCell ctx b ps c F, GoodEntry ctx.board ctx.mode e := by
        by_cases hb0 : b = 0
        · rw [hb0, exploreCell_zero]
          exact hF
        · obtain ⟨b', hbeq⟩ : ∃ b', b = b' + 1 := ⟨b - 1, by omega⟩
          rw [hbeq, exploreCell_succ']
          by_cases hpr : ctx.usePrune = true
              ∧ (ps ++ [c]).map (get_letter ctx.board) ∉ ctx.trunc
          · rw [if_pos hpr]
            exact hF
          · rw [if_neg hpr]
            have hF1 : ∀ e ∈ (if (ps ++ [c]).map (get_letter ctx.board) ∈ ctx.words
                then dictSet F ((ps ++ [c]).map (get_letter ctx.board))
                  (ps.map some ++ [some c])
                else F), GoodEntry ctx.board ctx.mode e := by
              split
              · intro e he
                rcases mem_dictSet he with h | h
                · exact hF e h
                · subst h
                  refine ⟨ps ++ [c], by simp, by simp, nodup_concat_of hnd hc.2.1, ?_, ?_, rfl⟩
                  · intro x hx
                    rcases List.mem_append.mp hx with h' | h'
                    · exact hpb x h'
                    · rw [List.mem_singleton] at h'
                      exact h' ▸ hc.1
                  · refine List.chain'_append.mpr ⟨hch, List.chain'_singleton c, ?_⟩
                    intro x hx y hy
                    simp only [List.head?_cons, Option.mem_def, Option.some.injEq] at hy
                    exact hy ▸ hc.2.2 x hx
              · exact hF
            apply explore_good ctx b' (ps ++ [c]) _ _
              (nodup_concat_of hnd hc.2.1)
              (by
                intro x hx
                rcases List.mem_append.mp hx with h' | h'
                · exact hpb x h'
                · rw [List.mem_singleton] at h'
                  exact h' ▸ hc.1)
              (by
                refine List.chain'_append.mpr ⟨hch, List.chain'_singleton c, ?_⟩
                intro x hx y hy
                simp only [List.head?_cons, Option.mem_def, Option.some.injEq] at hy
                exact hy ▸ hc.2.2 x hx)
              (by
                intro x hx
                rw [List.mem_reverse] at hx
                obtain ⟨hadj, hin, hnp⟩ := mem_get_valid_neighbors.mp hx
                refine ⟨hin, ?_, ?_⟩
                · intro hmem
                  exact hnp (by simpa using List.mem_map_of_mem some hmem)
                · intro z hz
                  rw [List.getLast?_concat] at hz
                  injection hz with hz'
                  exact hz' ▸ hadj)
              hF1
      exact explore_good ctx b ps cs (exploreCell ctx b ps c F) hnd hpb hch
        (fun x hx => hcells x (by simp [hx])) hF'
termination_by (b, cells.length)

theorem inbounds_concat {board : List (List Char)} {ps : List Cell} {c : Cell}
    (hpb : ∀ x ∈ ps, InBounds board x) (hc : InBounds board c) :
    ∀ x ∈ ps ++ [c], InBounds board x := by
  intro x hx
  rcases List.mem_append.mp hx with h | h
  · exact hpb x h
  · rw [List.mem_singleton] at h
    exact h ▸ hc

theorem valid_neighbors_facts {mode : AdjacencyMode} {board : List (List Char)}
    {ps : List Cell} {c : Cell} :
    ∀ x ∈ (get_valid_neighbors mode board (ps.map some ++ [some c])).reverse,
      InBounds board x ∧ x ∉ ps ++ [c] := by
  intro x hx
  rw [List.mem_reverse] at hx
  obtain ⟨hadj, hin, hnp⟩ := mem_get_valid_neighbors.mp hx
  exact ⟨hin, fun hmem => hnp (by simpa using List.mem_map_of_mem some hmem)⟩

/-- A branch whose letters already fail the prefix index at some depth
adds nothing, even without pruning: any word completed below it would have
that failing truncation recorded in `words_trunc_dict`. -/
theorem explore_doomed (ctx : SolveCtx) (hP : ctx.usePrune = false)
    (Hw : ∀ w ∈ ctx.words, ∀ i, 1 ≤ i → i ≤ ctx.board.length * ctx.board.length →
      w.take i ∈ ctx.trunc)
    (b : Nat) (ps cells : List Cell) (F : Found)
    (hnd : ps.Nodup) (hpb : ∀ c ∈ ps, InBounds ctx.board c)
    (hcells : ∀ c ∈ cells, InBounds ctx.board c ∧ c ∉ ps)
    (i : Nat) (hi1 : 1 ≤ i) (hi2 : i ≤ ps.length)
    (hdoom : (ps.map (get_letter ctx.board)).take i ∉ ctx.trunc) :
    exploreLevel ctx b ps cells F = F := by
  match cells with
  | [] => rw [exploreLevel_nil]
  | c :: cs =>
      rw [exploreLevel_cons]
      have hc := hcells c (by simp)
      have hnd' := nodup_concat_of hnd hc.2
      have hpb' := inbounds_concat hpb hc.1
      have hlen := nodup_inbounds_length_le hnd' hpb'
      rw [List.length_append, List.length_singleton] at hlen
      have hdoom' : ((ps ++ [c]).map (get_letter ctx.board)).take i ∉ ctx.trunc := by
        rw [List.map_append, List.take_append_of_le_length (by rw [List.length_map]; omega)]
        exact hdoom
      have hcell : exploreCell ctx b ps c F = F := by
        by_cases hb0 : b = 0
        · rw [hb0, exploreCell_zero]
        · obtain ⟨b', hbeq⟩ : ∃ b', b = b' + 1 := ⟨b - 1, by omega⟩
          rw [hbeq, exploreCell_succ']
          rw [if_neg (by simp [hP])]
          have hw : (ps ++ [c]).map (get_letter ctx.board) ∉ ctx.words := by
            intro hwmem
            exact hdoom' (Hw _ hwmem i hi1 (by omega))
          rw [if_neg hw]
          exact explore_doomed ctx hP Hw b' (ps ++ [c]) _ F hnd' hpb'
            valid_neighbors_facts i hi1 (by rw [List.length_append]; omega) hdoom'
      rw [hcell]
      exact explore_doomed ctx hP Hw b ps cs F hnd hpb
        (fun x hx => hcells x (by simp [hx])) i hi1 hi2 hdoom
termination_by (b, cells.length)

/-- Exploration is insensitive to the prefix-membership test: the pruned
and unpruned searches produce the same mapping, because `words_trunc_dict`
holds every truncation (up to the cell count) of every dictionary word. -/
theorem explore_prune_eq (mode : AdjacencyMode) (board words trunc : List (List Char))
    (Hw : ∀ w ∈ words, ∀ i, 1 ≤ i → i ≤ board.length * board.length → w.take i ∈ trunc) :
    ∀ (b : Nat) (ps cells : List Cell) (F : Found),
      ps.Nodup → (∀ c ∈ ps, InBounds board c) →
      (∀ c ∈ cells, InBounds board c ∧ c ∉ ps) →
      exploreLevel ⟨true, mode, board, words, trunc⟩ b ps cells F
        = exploreLevel ⟨false, mode, board, words, trunc⟩ b ps cells F := by
  intro b ps cells F hnd hpb hcells
  match cells with
  | [] => rw [exploreLevel_nil, exploreLevel_nil]
  | c :: cs =>
      rw [exploreLevel_cons, exploreLevel_cons]
      have hc := hcells c (by simp)
      have hnd' := nodup_concat_of hnd hc.2
      have hpb' := inbounds_concat hpb hc.1
      have hlen := nodup_inbounds_length_le hnd' hpb'
      have hcell : exploreCell ⟨true, mode, board, words, trunc⟩ b ps c F
          = exploreCell ⟨false, mode, board, words, trunc⟩ b ps c F := by
        by_cases hb0 : b = 0
        · rw [hb0, exploreCell_zero, exploreCell_zero]
        · obtain ⟨b', hbeq⟩ : ∃ b', b = b' + 1 := ⟨b - 1, by omega⟩
          rw [hbeq, exploreCell_succ', exploreCell_succ']
          by_cases hw : (ps ++ [c]).map (get_letter board) ∈ trunc
          · rw [if_neg (show ¬(true = true ∧ (ps ++ [c]).map (get_letter board) ∉ trunc)
                  from fun h => h.2 hw),
                if_neg (show ¬(false = true ∧ (ps ++ [c]).map (get_letter board) ∉ trunc)
                  from fun h => Bool.false_ne_true h.1)]
            exact explore_prune_eq mode board words trunc Hw b' (ps ++ [c]) _ _
              hnd' hpb' valid_neighbors_facts
          · rw [if_pos (show true = true ∧ (ps ++ [c]).map (get_letter board) ∉ trunc
                  from ⟨rfl, hw⟩),
                if_neg (show ¬(false = true ∧ (ps ++ [c]).map (get_letter board) ∉ trunc)
                  from fun h => Bool.false_ne_true h.1)]
            have hwv : (ps ++ [c]).map (get_letter board) ∉ words := by
              intro hwmem
              have htake := Hw _ hwmem ((ps ++ [c]).length) (by simp) hlen
              rw [show (ps ++ [c]).length
                    = ((ps ++ [c]).map (get_letter board)).length from (List.length_map _ _).symm,
                  List.take_length] at htake
              exact hw htake
            rw [if_neg hwv]
            refine (explore_doomed ⟨false, mode, board, words, trunc⟩ rfl Hw b' (ps ++ [c]) _ F
              hnd' hpb' valid_neighbors_facts ((ps ++ [c]).length) (by simp) (le_refl _) ?_).symm
            rw [show (ps ++ [c]).length
                  = ((ps ++ [c]).map (get_letter board)).length from (List.length_map _ _).symm,
                List.take_length]
            exact hw
      rw [hcell]
      exact explore_prune_eq mode board words trunc Hw b ps cs _
        hnd hpb (fun x hx => hcells x (by simp [hx]))
termination_by b _ cells _ => (b, cells.length)

/-- Any halted run of the loop ends in the state the recursive reference
exploration describes: empty stack and buffers, and the mapping obtained
by exploring every starting cell. -/
theorem solveRun_halted_spec (ctx : SolveCtx) (N : Nat)
    (hhalt : (solveRun ctx N (initState ctx.board)).stack = []) :
    solveRun ctx N (initState ctx.board)
      = ⟨[], exploreLevel ctx (ctx.board.length * ctx.board.length) []
          (init_cells ctx.board).reverse [], [], []⟩ := by
  obtain ⟨N₀, hN₀⟩ := run_bridge ctx (ctx.board.length * ctx.board.length)
    (init_cells ctx.board) [] [] [] none List.nodup_nil (by simp)
    (fun c hc => ⟨mem_init_cells.mp hc, by simp⟩) (by simp)
  have hinit : ((⟨[] ++ [init_cells ctx.board], [], ([] : List Cell).map some ++ [none],
      (([] : List Cell).map (get_letter ctx.board)).map some
        ++ [Option.map (get_letter ctx.board) none]⟩ : SolveState)) = initState ctx.board := rfl
  rw [hinit] at hN₀
  have h0 : (solveRun ctx N₀ (initState ctx.board)).stack = [] := by rw [hN₀]
  rw [solveRun_halted_eq ctx N N₀ (initState ctx.board) hhalt h0, hN₀]
  rfl

theorem mem_construct_lookup_words {size : Nat} {wl : List (List Char)} {s : List Char} :
    s ∈ (construct_lookup size wl).1 ↔ s ∈ wl := by
  induction wl with
  | nil => exact Iff.rfl
  | cons w rest ih => simp [construct_lookup, ih]

theorem mem_construct_lookup_trunc {size : Nat} {wl : List (List Char)} {s : List Char} :
    s ∈ (construct_lookup size wl).2 ↔
      ∃ w ∈ wl, ∃ i, 1 ≤ i ∧ i ≤ size * size ∧ s = w.take i := by
  induction wl with
  | nil => simp [construct_lookup]
  | cons w rest ih =>
      constructor
      · intro h
        have h' : s ∈ truncsOf w (size * size) ++ (construct_lookup size rest).2 := h
        rcases List.mem_append.mp h' with h1 | h2
        · obtain ⟨i, hi, hs⟩ := List.mem_map.mp h1
          have hi' := List.mem_range.mp hi
          exact ⟨w, by simp, i + 1, by omega, by omega, hs.symm⟩
        · obtain ⟨w', hw', i, h1, h2, h3⟩ := ih.mp h2
          exact ⟨w', by simp [hw'], i, h1, h2, h3⟩
      · rintro ⟨w', hw', i, h1, h2, h3⟩
        show s ∈ truncsOf w (size * size) ++ (construct_lookup size rest).2
        rcases List.mem_cons.mp hw' with rfl | hw'
        · refine List.mem_append.mpr (Or.inl ?_)
          refine List.mem_map.mpr ⟨i - 1, List.mem_range.mpr (by omega), ?_⟩
          rw [show i - 1 + 1 = i from by omega]
          exact h3.symm
        · exact List.mem_append.mpr (Or.inr (ih.mpr ⟨w', hw', i, h1, h2, h3⟩))

theorem construct_lookup_take_mem {size : Nat} {wl : List (List Char)} {w : List Char}
    (hw : w ∈ (construct_lookup size wl).1) {i : Nat} (h1 : 1 ≤ i) (h2 : i ≤ size * size) :
    w.take i ∈ (construct_lookup size wl).2 :=
  mem_construct_lookup_trunc.mpr ⟨w, mem_construct_lookup_words.mp hw, i, h1, h2, rfl⟩

theorem construct_board_rows_ok_iff (rows : List (List Char)) (n : Nat)
    (acc : List (List Char)) :
    (∃ b, construct_board_rows rows (some n) acc = .ok b) ↔ ∀ r ∈ rows, r.length = n := by
  induction rows generalizing n acc with
  | nil => simp [construct_board_rows]
  | cons row rest ih =>
      by_cases h : row.length ≠ n
      · constructor
        · rintro ⟨b, hb⟩
          rw [show construct_board_rows (row :: rest) (some n) acc
                = .error "Error reading board: board must be square" from by
              simp [construct_board_rows, if_pos h]] at hb
          cases hb
        · intro hall
          exact absurd (hall row (by simp)) h
      · have hlen : row.length = n := not_not.mp h
        rw [show construct_board_rows (row :: rest) (some n) acc
              = construct_board_rows rest (some row.length) (acc ++ [row.map Char.toLower]) from by
            simp [construct_board_rows, h], hlen, ih]
        constructor
        · intro hall r hr
          rcases List.mem_cons.mp hr with rfl | hr'
          · exact hlen
          · exact hall r hr'
        · intro hall r hr
          exact hall r (by simp [hr])

theorem construct_board_ok_iff (size : Nat) (rows : List (List Char)) :
    (∃ b, construct_board size rows = .ok b) ↔
      ∀ r ∈ rows, ∀ r' ∈ rows, r.length = r'.length := by
  cases rows with
  | nil =>
      constructor
      · intro _ r hr
        cases hr
      · intro _
        exact ⟨[], rfl⟩
  | cons row rest =>
      have hun : construct_board size (row :: rest)
          = construct_board_rows rest (some row.length) [row.map Char.toLower] := by
        simp [construct_board, construct_board_rows]
      rw [hun, construct_board_rows_ok_iff]
      constructor
      · intro hall r hr r' hr'
        have hx : ∀ x ∈ row :: rest, x.length = row.length := by
          intro x hx
          rcases List.mem_cons.mp hx with rfl | hx'
          · rfl
          · exact hall x hx'
        rw [hx r hr, hx r' hr']
      · intro hall r hr
        exact hall r (by simp [hr]) row (by simp)

theorem get_score_eq_sum (ws : List (List Char)) :
    get_score ws = (ws.map get_points).sum := by
  have h : ∀ (a : Nat) (l : List (List Char)),
      l.foldl (fun score word => score + get_points word) a = a + (l.map get_points).sum := by
    intro a l
    induction l generalizing a with
    | nil => simp
    | cons w rest ih => simp [List.foldl_cons, ih]; omega
  simpa [get_score] using h 0 ws

/-- C10: `get_points` scores a word purely by length — 1 for lengths 1–4,
2 for 5, 3 for 6, 5 for 7 and 11 for length at least 8 — and `get_score`
is the sum of `get_points` over the collection, 0 on the empty
collection. -/
theorem c10_scoring :
    (∀ w : List Char,
      (1 ≤ w.length → w.length ≤ 4 → get_points w = 1) ∧
      (w.length = 5 → get_points w = 2) ∧
      (w.length = 6 → get_points w = 3) ∧
      (w.length = 7 → get_points w = 5) ∧
      (8 ≤ w.length → get_points w = 11)) ∧
    (∀ ws : List (List Char), get_score ws = (ws.map get_points).sum) ∧
    get_score [] = 0 := by
  refine ⟨?_, get_score_eq_sum, rfl⟩
  intro w
  refine ⟨?_, ?_, ?_, ?_, ?_⟩ <;> unfold get_points
  · intro _ h2
    rw [if_pos h2]
  · intro h5
    rw [if_neg (by omega), if_pos h5]
  · intro h6
    rw [if_neg (by omega), if_neg (by omega), if_pos h6]
  · intro h7
    rw [if_neg (by omega), if_neg (by omega), if_neg (by omega), if_pos h7]
  · intro h8
    rw [if_neg (by omega), if_neg (by omega), if_neg (by omega), if_neg (by omega)]

theorem c10_scoring_witness :
    get_points ['a'] = 1 ∧ get_points ['a', 'b', 'c', 'd', 'e'] = 2
      ∧ get_points ['a', 'b', 'c', 'd', 'e', 'f'] = 3
      ∧ get_points ['a', 'b', 'c', 'd', 'e', 'f', 'g'] = 5
      ∧ get_points ['a', 'b', 'c', 'd', 'e', 'f', 'g', 'h'] = 11
      ∧ get_score [['a'], ['a', 'b', 'c', 'd', 'e']]
          = ([['a'], ['a', 'b', 'c', 'd', 'e']].map get_points).sum := by
  obtain ⟨h1, h2, _⟩ := c10_scoring
  exact ⟨(h1 ['a']).1 (by decide) (by decide), (h1 _).2.1 (by decide),
    (h1 _).2.2.1 (by decide), (h1 _).2.2.2.1 (by decide), (h1 _).2.2.2.2 (by decide), h2 _⟩

/-- C8: for an explicitly supplied board, construction succeeds exactly
when all rows have equal length; otherwise it fails (the source exits
with its board-must-be-square error before any search), and the failure
path returns no board. -/
theorem c8_board_validation (size : Nat) (rows : List (List Char)) :
    (∃ b, construct_board size rows = Except.ok b) ↔
      ∀ r ∈ rows, ∀ r' ∈ rows, r.length = r'.length :=
  construct_board_ok_iff size rows

/-- C9: a board of 3 rows of 2 characters — equal row lengths but row
count different from the common length — is accepted without any error,
yielding a rectangular, non-square board, for every value of the
board-size argument (which this branch never reads). -/
theorem c9_nonsquare_board (size : Nat) :
    construct_board size [['a', 'b'], ['c', 'd'], ['e', 'f']]
        = Except.ok [['a', 'b'], ['c', 'd'], ['e', 'f']]
      ∧ ([['a', 'b'], ['c', 'd'], ['e', 'f']] : List (List Char)).length = 3
      ∧ (∀ r ∈ ([['a', 'b'], ['c', 'd'], ['e', 'f']] : List (List Char)), r.length = 2)
      ∧ (3 : Nat) ≠ 2 :=
  ⟨rfl, rfl, by decide, by decide⟩

/-- C2 counterexample: the lexicon build inserts words as written, not
lowercased — for the raw word "AB" the set `words` contains "AB" and not
its lowercased form "ab", contradicting the claimed case folding. -/
theorem c2_lookup_cex :
    (construct_lookup 2 [['A', 'B']]).1 = [['A', 'B']]
      ∧ ['a', 'b'] ∉ (construct_lookup 2 [['A', 'B']]).1 := by
  exact ⟨rfl, by decide⟩

/-- C2 amended: for every raw word list of non-empty words, the lexicon
build inserts each input word unchanged (no case folding is performed),
and the resulting prefix set holds exactly the prefixes `word[0..i]` for
`i` in `1..min(len(word), size*size)` over all input words. -/
theorem c2_lookup_amended (size : Nat) (wl : List (List Char))
    (hne : ∀ w ∈ wl, w ≠ []) :
    (∀ s, s ∈ (construct_lookup size wl).1 ↔ s ∈ wl) ∧
    (∀ s, s ∈ (construct_lookup size wl).2 ↔
      ∃ w ∈ wl, ∃ i, 1 ≤ i ∧ i ≤ min w.length (size * size) ∧ s = w.take i) := by
  refine ⟨fun s => mem_construct_lookup_words, fun s => ?_⟩
  rw [mem_construct_lookup_trunc]
  constructor
  · rintro ⟨w, hw, i, h1, h2, rfl⟩
    by_cases hle : i ≤ w.length
    · exact ⟨w, hw, i, h1, by omega, rfl⟩
    · have hpos : 0 < w.length := List.length_pos.mpr (hne w hw)
      refine ⟨w, hw, w.length, by omega, by omega, ?_⟩
      rw [List.take_length, List.take_of_length_le (by omega)]
  · rintro ⟨w, hw, i, h1, h2, rfl⟩
    exact ⟨w, hw, i, h1, by omega, rfl⟩

theorem c2_lookup_amended_witness :
    (∀ w ∈ ([['a', 'b']] : List (List Char)), w ≠ []) ∧
    ((∀ s, s ∈ (construct_lookup 2 [['a', 'b']]).1 ↔ s ∈ [['a', 'b']]) ∧
     (∀ s, s ∈ (construct_lookup 2 [['a', 'b']]).2 ↔
       ∃ w ∈ ([['a', 'b']] : List (List Char)), ∃ i,
         1 ≤ i ∧ i ≤ min w.length (2 * 2) ∧ s = w.take i)) :=
  ⟨by decide, c2_lookup_amended 2 [['a', 'b']] (by decide)⟩

set_option maxRecDepth 40000

/-- C1 counterexample: on the board `[[a,b],[a,b]]` with dictionary
`{"ab"}`, the word "ab" is first stored (after 3 iterations) with the
path `[(1,0),(0,1)]`, yet the final mapping holds `[(0,0),(0,1)]` — a
later discovery replaced the stored path, so the mapping does not keep
the first witnessing path. -/
theorem c1_insert_cex :
    ((solveRun ⟨true, .all, [['a', 'b'], ['a', 'b']], [['a', 'b']], [['a'], ['a', 'b']]⟩ 3
        (initState [['a', 'b'], ['a', 'b']])).found
      = [(['a', 'b'], [some ((1 : Int), (0 : Int)), some ((0 : Int), (1 : Int))])])
    ∧ ((solveRun ⟨true, .all, [['a', 'b'], ['a', 'b']], [['a', 'b']], [['a'], ['a', 'b']]⟩ 60
        (initState [['a', 'b'], ['a', 'b']])).stack = [])
    ∧ ((solveRun ⟨true, .all, [['a', 'b'], ['a', 'b']], [['a', 'b']], [['a'], ['a', 'b']]⟩ 60
        (initState [['a', 'b'], ['a', 'b']])).found
      = [(['a', 'b'], [some ((0 : Int), (0 : Int)), some ((0 : Int), (1 : Int))])])
    ∧ ([some ((1 : Int), (0 : Int)), some ((0 : Int), (1 : Int))] : List (Option Cell))
      ≠ [some ((0 : Int), (0 : Int)), some ((0 : Int), (1 : Int))] := by
  refine ⟨by decide, by decide, by decide, by decide⟩

/-- C1 amended: when the candidate word is in the dictionary (and the
branch survives the prefix test), the loop stores the current path under
the candidate unconditionally — Python dict assignment — overwriting any
previously stored path, so the mapping keeps the most recently discovered
witnessing path for each word. -/
theorem c1_insert_amended (ctx : SolveCtx) (s : SolveState) (cells : List Cell) (c : Cell)
    (h1 : s.stack.getLast? = some cells) (h2 : cells.getLast? = some c)
    (hpr : ¬(ctx.usePrune = true
        ∧ (setLast s.letters (some (get_letter ctx.board c))).filterMap id ∉ ctx.trunc))
    (hw : (setLast s.letters (some (get_letter ctx.board c))).filterMap id ∈ ctx.words) :
    List.lookup ((setLast s.letters (some (get_letter ctx.board c))).filterMap id)
        (solveStep ctx s).found
      = some (setLast s.path (some c)) := by
  have hfound : (solveStep ctx s).found
      = dictSet s.found ((setLast s.letters (some (get_letter ctx.board c))).filterMap id)
          (setLast s.path (some c)) := by
    rw [solveStep_visit ctx s cells c h1 h2]
    simp only []
    rw [if_neg hpr, if_pos hw]
    split <;> rfl
  rw [hfound]
  exact lookup_dictSet _ _ _

theorem c1_insert_amended_witness :
    List.lookup ((setLast (initState [['a']]).letters
          (some (get_letter [['a']] ((0 : Int), (0 : Int))))).filterMap id)
        (solveStep ⟨true, .all, [['a']], [['a']], [['a']]⟩ (initState [['a']])).found
      = some (setLast (initState [['a']]).path (some ((0 : Int), (0 : Int)))) :=
  c1_insert_amended ⟨true, .all, [['a']], [['a']], [['a']]⟩ (initState [['a']])
    [((0 : Int), (0 : Int))] ((0 : Int), (0 : Int))
    (by decide) (by decide) (by decide) (by decide)

/-- C3 counterexample: in the concrete scenario under NO_DIAG, the word
"abd" IS found — b at (0,1) and d at (1,1) are orthogonal neighbors, not
diagonal — contradicting the claim that "abd" is absent. -/
theorem c3_scenario_cex :
    ((solveRun (scenarioCtx .no_diag) 200 (initState scenarioBoard)).stack = [])
    ∧ (['a', 'b', 'd'],
        [some ((0 : Int), (0 : Int)), some ((0 : Int), (1 : Int)),
          some ((1 : Int), (1 : Int))])
      ∈ (solveRun (scenarioCtx .no_diag) 200 (initState scenarioBoard)).found := by
  refine ⟨by decide, by decide⟩

/-- C3 amended: in the concrete scenario under ALL the result mapping
holds exactly the five words with the claimed witnessing paths and total
score 5; under NO_DIAG, "abc" is not found (b and c are diagonal only)
but "abd" still is, via `[(0,0),(0,1),(1,1)]` (b and d are orthogonal
neighbors on a 2x2 grid). -/
theorem c3_scenario_amended (N M : Nat)
    (hA : (solveRun (scenarioCtx .all) N (initState scenarioBoard)).stack = [])
    (hD : (solveRun (scenarioCtx .no_diag) M (initState scenarioBoard)).stack = []) :
    ((solveRun (scenarioCtx .all) N (initState scenarioBoard)).found
      = [(['b', 'a'], [some ((0 : Int), (1 : Int)), some ((0 : Int), (0 : Int))]),
         (['a', 'b'], [some ((0 : Int), (0 : Int)), some ((0 : Int), (1 : Int))]),
         (['a', 'b', 'c'], [some ((0 : Int), (0 : Int)), some ((0 : Int), (1 : Int)),
           some ((1 : Int), (0 : Int))]),
         (['a', 'b', 'd'], [some ((0 : Int), (0 : Int)), some ((0 : Int), (1 : Int)),
           some ((1 : Int), (1 : Int))]),
         (['a', 'c'], [some ((0 : Int), (0 : Int)), some ((1 : Int), (0 : Int))])])
    ∧ get_score (((solveRun (scenarioCtx .all) N (initState scenarioBoard)).found).map
        Prod.fst) = 5
    ∧ List.lookup ['a', 'b', 'c']
        (solveRun (scenarioCtx .no_diag) M (initState scenarioBoard)).found = none
    ∧ List.lookup ['a', 'b', 'd']
        (solveRun (scenarioCtx .no_diag) M (initState scenarioBoard)).found
      = some [some ((0 : Int), (0 : Int)), some ((0 : Int), (1 : Int)),
          some ((1 : Int), (1 : Int))] := by
  have hA' := solveRun_halted_eq (scenarioCtx .all) N 200 (initState scenarioBoard) hA
    (by decide)
  have hD' := solveRun_halted_eq (scenarioCtx .no_diag) M 200 (initState scenarioBoard) hD
    (by decide)
  rw [hA', hD']
  refine ⟨by decide, by decide, by decide, by decide⟩

theorem c3_scenario_amended_witness :
    ((solveRun (scenarioCtx .all) 200 (initState scenarioBoard)).stack = [])
    ∧ ((solveRun (scenarioCtx .no_diag) 200 (initState scenarioBoard)).stack = [])
    ∧ get_score (((solveRun (scenarioCtx .all) 200 (initState scenarioBoard)).found).map
        Prod.fst) = 5
    ∧ List.lookup ['a', 'b', 'c']
        (solveRun (scenarioCtx .no_diag) 200 (initState scenarioBoard)).found = none :=
  ⟨by decide, by decide,
    (c3_scenario_amended 200 200 (by decide) (by decide)).2.1,
    (c3_scenario_amended 200 200 (by decide) (by decide)).2.2.1⟩

/-- C4: with the lexicon built by `construct_lookup`, running the loop
with the prefix-membership test (`usePrune := true`, the source) and
running it without the test (`usePrune := false`, the specification's
unpruned brute-force enumeration of all simple paths) produce the same
result mapping — the same word keys with the same witnessing paths. -/
theorem c4_prune_equiv (mode : AdjacencyMode) (board wordList : List (List Char)) (N M : Nat)
    (_hsq : ∀ row ∈ board, row.length = board.length)
    (hP : (solveRun ⟨true, mode, board, (construct_lookup board.length wordList).1,
        (construct_lookup board.length wordList).2⟩ N (initState board)).stack = [])
    (hB : (solveRun ⟨false, mode, board, (construct_lookup board.length wordList).1,
        (construct_lookup board.length wordList).2⟩ M (initState board)).stack = []) :
    (solveRun ⟨true, mode, board, (construct_lookup board.length wordList).1,
        (construct_lookup board.length wordList).2⟩ N (initState board)).found
      = (solveRun ⟨false, mode, board, (construct_lookup board.length wordList).1,
          (construct_lookup board.length wordList).2⟩ M (initState board)).found := by
  have h1 : solveRun ⟨true, mode, board, (construct_lookup board.length wordList).1,
        (construct_lookup board.length wordList).2⟩ N (initState board)
      = ⟨[], exploreLevel ⟨true, mode, board, (construct_lookup board.length wordList).1,
            (construct_lookup board.length wordList).2⟩ (board.length * board.length) []
            (init_cells board).reverse [], [], []⟩ :=
    solveRun_halted_spec _ N hP
  have h2 : solveRun ⟨false, mode, board, (construct_lookup board.length wordList).1,
        (construct_lookup board.length wordList).2⟩ M (initState board)
      = ⟨[], exploreLevel ⟨false, mode, board, (construct_lookup board.length wordList).1,
            (construct_lookup board.length wordList).2⟩ (board.length * board.length) []
            (init_cells board).reverse [], [], []⟩ :=
    solveRun_halted_spec _ M hB
  rw [h1, h2]
  show exploreLevel _ _ _ _ _ = exploreLevel _ _ _ _ _
  exact explore_prune_eq mode board (construct_lookup board.length wordList).1
    (construct_lookup board.length wordList).2
    (fun w hw i hi1 hi2 => construct_lookup_take_mem hw hi1 hi2)
    (board.length * board.length) [] (init_cells board).reverse []
    List.nodup_nil (by simp)
    (fun c hc => ⟨mem_init_cells.mp (List.mem_reverse.mp hc), by simp⟩)

theorem c4_prune_equiv_witness :
    (∀ row ∈ ([['a']] : List (List Char)), row.length = ([['a']] : List (List Char)).length)
    ∧ ((solveRun ⟨true, .all, [['a']], (construct_lookup 1 [['a']]).1,
        (construct_lookup 1 [['a']]).2⟩ 20 (initState [['a']])).stack = [])
    ∧ ((solveRun ⟨false, .all, [['a']], (construct_lookup 1 [['a']]).1,
        (construct_lookup 1 [['a']]).2⟩ 20 (initState [['a']])).stack = [])
    ∧ ((solveRun ⟨true, .all, [['a']], (construct_lookup 1 [['a']]).1,
        (construct_lookup 1 [['a']]).2⟩ 20 (initState [['a']])).found
      = (solveRun ⟨false, .all, [['a']], (construct_lookup 1 [['a']]).1,
          (construct_lookup 1 [['a']]).2⟩ 20 (initState [['a']])).found) :=
  ⟨by decide, by decide, by decide,
    c4_prune_equiv .all [['a']] [['a']] 20 20 (by decide) (by decide) (by decide)⟩

/-- C5: every path stored in a halted run's result mapping is a valid
path — fully filled, pairwise-distinct cells, all within the board's
bounds, and consecutive cells adjacent under the active mode's offset
set. -/
theorem c5_path_validity (mode : AdjacencyMode) (board words trunc : List (List Char))
    (N : Nat)
    (_hsq : ∀ row ∈ board, row.length = board.length)
    (hhalt : (solveRun ⟨true, mode, board, words, trunc⟩ N (initState board)).stack = []) :
    ∀ w p, (w, p) ∈ (solveRun ⟨true, mode, board, words, trunc⟩ N (initState board)).found →
      ∃ q : List Cell, p = q.map some ∧ q.Nodup ∧ (∀ c ∈ q, InBounds board c)
        ∧ List.Chain' (adjacent mode) q := by
  intro w p hmem
  have h1 : solveRun ⟨true, mode, board, words, trunc⟩ N (initState board)
      = ⟨[], exploreLevel ⟨true, mode, board, words, trunc⟩ (board.length * board.length) []
          (init_cells board).reverse [], [], []⟩ := solveRun_halted_spec _ N hhalt
  rw [h1] at hmem
  have hg := explore_good ⟨true, mode, board, words, trunc⟩ (board.length * board.length) []
    (init_cells board).reverse [] List.nodup_nil (by simp) List.chain'_nil
    (by
      intro c hc
      refine ⟨mem_init_cells.mp (List.mem_reverse.mp hc), by simp, ?_⟩
      intro x hx
      simp at hx)
    (by simp) (w, p) hmem
  obtain ⟨q, hq2, _, hqnd, hqb, hqch, _⟩ := hg
  exact ⟨q, hq2, hqnd, hqb, hqch⟩

theorem c5_path_validity_witness :
    (∀ row ∈ ([['a']] : List (List Char)), row.length = ([['a']] : List (List Char)).length)
    ∧ ((solveRun ⟨true, .all, [['a']], [['a']], [['a']]⟩ 20 (initState [['a']])).stack = [])
    ∧ (∀ w p, (w, p) ∈ (solveRun ⟨true, .all, [['a']], [['a']], [['a']]⟩ 20
          (initState [['a']])).found →
        ∃ q : List Cell, p = q.map some ∧ q.Nodup ∧ (∀ c ∈ q, InBounds [['a']] c)
          ∧ List.Chain' (adjacent .all) q) :=
  ⟨by decide, by decide,
    c5_path_validity .all [['a']] [['a']] [['a']] 20 (by decide) (by decide)⟩

/-- C6: for every binding of a halted run's result mapping, reading the
grid letter at each cell of the stored path, in order, spells exactly the
stored word. -/
theorem c6_word_path_consistency (mode : AdjacencyMode) (board words trunc : List (List Char))
    (N : Nat)
    (_hsq : ∀ row ∈ board, row.length = board.length)
    (hhalt : (solveRun ⟨true, mode, board, words, trunc⟩ N (initState board)).stack = []) :
    ∀ w p, (w, p) ∈ (solveRun ⟨true, mode, board, words, trunc⟩ N (initState board)).found →
      ∃ q : List Cell, p = q.map some ∧ w = q.map (get_letter board) := by
  intro w p hmem
  have h1 : solveRun ⟨true, mode, board, words, trunc⟩ N (initState board)
      = ⟨[], exploreLevel ⟨true, mode, board, words, trunc⟩ (board.length * board.length) []
          (init_cells board).reverse [], [], []⟩ := solveRun_halted_spec _ N hhalt
  rw [h1] at hmem
  have hg := explore_good ⟨true, mode, board, words, trunc⟩ (board.length * board.length) []
    (init_cells board).reverse [] List.nodup_nil (by simp) List.chain'_nil
    (by
      intro c hc
      refine ⟨mem_init_cells.mp (List.mem_reverse.mp hc), by simp, ?_⟩
      intro x hx
      simp at hx)
    (by simp) (w, p) hmem
  obtain ⟨q, hq2, _, _, _, _, hq1⟩ := hg
  exact ⟨q, hq2, hq1⟩

theorem c6_word_path_consistency_witness :
    (∀ row ∈ ([['a']] : List (List Char)), row.length = ([['a']] : List (List Char)).length)
    ∧ ((solveRun ⟨true, .all, [['a']], [['a']], [['a']]⟩ 20 (initState [['a']])).stack = [])
    ∧ (∀ w p, (w, p) ∈ (solveRun ⟨true, .all, [['a']], [['a']], [['a']]⟩ 20
          (initState [['a']])).found →
        ∃ q : List Cell, p = q.map some ∧ w = q.map (get_letter [['a']])) :=
  ⟨by decide, by decide,
    c6_word_path_consistency .all [['a']] [['a']] [['a']] 20 (by decide) (by decide)⟩

/-- C7: for every board with at least one row, lexicon and adjacency
mode, the loop reaches the empty-stack terminal state after finitely many
iterations. -/
theorem c7_termination (mode : AdjacencyMode) (board words trunc : List (List Char))
    (_hsz : 1 ≤ board.length) :
    ∃ N, (solveRun ⟨true, mode, board, words, trunc⟩ N (initState board)).stack = [] := by
  obtain ⟨N₀, hN₀⟩ := run_bridge ⟨true, mode, board, words, trunc⟩
    (board.length * board.length) (init_cells board) [] [] [] none List.nodup_nil (by simp)
    (fun c hc => ⟨mem_init_cells.mp hc, by simp⟩) (by simp)
  have hN₀' : solveRun ⟨true, mode, board, words, trunc⟩ N₀ (initState board)
      = ⟨[], exploreLevel ⟨true, mode, board, words, trunc⟩ (board.length * board.length) []
          (init_cells board).reverse [], [], []⟩ := hN₀
  exact ⟨N₀, by rw [hN₀']⟩

theorem c7_termination_witness :
    1 ≤ ([['a']] : List (List Char)).length
    ∧ ∃ N, (solveRun ⟨true, .all, [['a']], [['a']], [['a']]⟩ N (initState [['a']])).stack
        = [] :=
  ⟨by decide, c7_termination .all [['a']] [['a']] [['a']] (by decide)⟩
